import Mathlib

/-!
Shallow embedding of `src/main.ts` (Rainbow Colored Sidebar, an Obsidian
plugin). Pure data and the DOM-annotation logic are modelled as Lean
functions: the file-explorer DOM is a list of tree items (the
`parentElement` of each node carrying a `data-path` attribute, together
with its class list), the vault adapter is a function from a path to the
folders it lists, and the host's `localeCompare`-based comparator is a
parameter of the model.
-/

/-! ### Class-name and CSS-variable strings -/

/-- The substring `'rcs-item'` searched for on src/main.ts line 104. -/
def rcsItemStr : String := "rcs-item"

/-- The class `'rcs-sub-item'` added on src/main.ts line 113. -/
def rcsSubItemStr : String := "rcs-sub-item"

/-- Template literal `rcs-item-${k}` (src/main.ts lines 87 and 112). -/
def rcsItemClass (k : Nat) : String := rcsItemStr ++ "-" ++ toString k

/-- Template literal `--rcs-color-${k}` (src/main.ts line 62). -/
def rcsColorVar (k : Nat) : String := "--rcs-color-" ++ toString k

/-! ### Settings (src/main.ts lines 4-14 and 47-49) -/

/-- interface RainbowColoredSidebarSettings (src/main.ts lines 4-8). -/
structure RainbowColoredSidebarSettings where
  scheme : String
  increaseContrast : Bool
  folderList : List String
deriving DecidableEq

/-- const DEFAULT_SETTINGS (src/main.ts lines 10-14). -/
def DEFAULT_SETTINGS : RainbowColoredSidebarSettings :=
  { scheme := "csDefault", increaseContrast := false, folderList := [] }

/-- Data previously persisted through the host's `saveData`, with any of the
fields possibly missing (data written by an older version), as consumed by
`Object.assign({}, DEFAULT_SETTINGS, data)`. -/
structure StoredSettings where
  scheme : Option String
  increaseContrast : Option Bool
  folderList : Option (List String)

/-- loadSettings (src/main.ts lines 47-49):
`Object.assign({}, DEFAULT_SETTINGS, await this.loadData())`. A `null`
stored object contributes nothing; a present field overrides the default. -/
def loadSettings : Option StoredSettings → RainbowColoredSidebarSettings
  | none => DEFAULT_SETTINGS
  | some d =>
    { scheme := d.scheme.getD DEFAULT_SETTINGS.scheme
      increaseContrast := d.increaseContrast.getD DEFAULT_SETTINGS.increaseContrast
      folderList := d.folderList.getD DEFAULT_SETTINGS.folderList }

/-! ### The document root (src/main.ts lines 58-70) -/

/-- A (name, value) store with overwrite-or-append update: the semantics of
both `style.setProperty` and `setAttribute` on `document.documentElement`. -/
def setEntry : List (String × String) → String → String → List (String × String)
  | [], n, v => [(n, v)]
  | (m, w) :: rest, n, v =>
    if m = n then (m, v) :: rest else (m, w) :: setEntry rest n v

/-- Lookup of a (name, value) store: the value at the first occurrence. -/
def getEntry (ps : List (String × String)) (n : String) : Option String :=
  (ps.find? (fun p => p.1 == n)).map (fun p => p.2)

/-- `style.removeProperty` and `removeAttribute`. -/
def removeEntry (ps : List (String × String)) (n : String) : List (String × String) :=
  ps.filter (fun p => p.1 != n)

/-- The mutable state of `document.documentElement` that setColorScheme
touches: its inline style properties and its attributes. -/
structure DocumentRoot where
  styleProps : List (String × String)
  attrs : List (String × String)
deriving DecidableEq

/-- setColorScheme (src/main.ts lines 58-70). `schemes` is the static
color-scheme table imported from `src/color-schemes.ts`, a file absent from
the repository snapshot; per the spec it is a static mapping from scheme
name to an ordered list of color values, modelled as a function parameter. -/
def setColorScheme (schemes : String → List String) (s : RainbowColoredSidebarSettings)
    (root : DocumentRoot) : DocumentRoot :=
  let newScheme := schemes s.scheme
  let props1 :=
    newScheme.enum.foldl (fun ps pr => setEntry ps (rcsColorVar (pr.1 + 1)) pr.2) root.styleProps
  let root1 : DocumentRoot := { root with styleProps := props1 }
  if s.increaseContrast then
    { root1 with attrs := setEntry root1.attrs "data-rcs-a11y" "1" }
  else
    { root1 with attrs := removeEntry root1.attrs "data-rcs-a11y" }

/-! ### The file-explorer DOM (src/main.ts lines 72-119) -/

/-- One file-explorer tree item: the `parentElement` of the node carrying a
`data-path` attribute, together with that element's class list
(a DOMTokenList: insertion order, `add` ignores duplicates). -/
structure DomItem where
  path : String
  classes : List String
deriving DecidableEq

/-- DOMTokenList.add: append the token unless already present. -/
def classListAdd (cs : List String) (c : String) : List String :=
  if c ∈ cs then cs else cs ++ [c]

/-- document.querySelector(`[data-path="${p}"]`)?.parentElement: the first
item in document order whose data-path is `p`. -/
def domQuery (dom : List DomItem) (p : String) : Option DomItem :=
  dom.find? (fun it => it.path == p)

/-- querySelector(`[data-path="${p}"]`)?.parentElement?.classList.add(c):
a no-op when no node carries the data-path. -/
def domAddClass : List DomItem → String → String → List DomItem
  | [], _, _ => []
  | it :: rest, p, c =>
    if it.path == p then { it with classes := classListAdd it.classes c } :: rest
    else it :: domAddClass rest p c

/-- The class list carried by the (first) item with data-path `p`. -/
def domClasses (dom : List DomItem) (p : String) : List String :=
  match domQuery dom p with
  | some it => it.classes
  | none => []

/-- JS String.prototype.startsWith, as used on src/main.ts line 77. -/
def jsStartsWith (s pre : String) : Bool := pre.toList.isPrefixOf s.toList

/-- JS String.prototype.includes (substring test), src/main.ts line 104. -/
def jsIncludes (s sub : String) : Bool := decide (sub.toList <:+: s.toList)

/-- JS `sub_folders[i].split("/")[0]` (src/main.ts line 99) for the
one-character separator: the segment before the first slash, the whole
string when there is none. -/
def splitHead (s : String) : String := String.mk (s.toList.takeWhile (fun c => c != '/'))

/-- Value of an all-digit numeral; `none` when empty or a non-digit occurs. -/
def digitsVal (cs : List Char) : Option Nat :=
  if cs = [] then none
  else if cs.all (fun c => c.isDigit) then
    some (cs.foldl (fun a c => a * 10 + (c.toNat - 48)) 0)
  else none

/-- JS Number(s) restricted to optional-sign integer numerals — the only
strings this program ever parses (src/main.ts line 108 hands it a character
followed by "1"); `none` models NaN. -/
def jsNumber (s : String) : Option Int :=
  match s.toList with
  | '-' :: rest => (digitsVal rest).map (fun n => -(n : Int))
  | cs => (digitsVal cs).map (fun n => (n : Int))

/-- src/main.ts line 108:
`Number(parent_rcs_index[parent_rcs_index.length-1] + 1)`. The last UTF-16
unit of the class string (`undefined` on the empty string, and
`undefined + 1` is NaN) is concatenated with `"1"` and parsed. -/
def newRcsIndex (cls : String) : Option Int :=
  match cls.toList.getLast? with
  | none => none
  | some c => jsNumber (String.mk [c, '1'])

/-- JS remainder `%` truncates toward zero: `Int.tmod`. -/
def jsMod (a b : Int) : Int := Int.tmod a b

/-- The rcs-item class added to the j-th folder of an independent group
(src/main.ts lines 111-112): `rcs-item-${((new_rcs_index + 1 + j) % 16) + 1}`;
a NaN index prints as "NaN". -/
def subItemClass (n : Option Int) (j : Nat) : String :=
  match n with
  | none => rcsItemStr ++ "-NaN"
  | some v => rcsItemStr ++ "-" ++ toString (jsMod (v + 1 + (j : Int)) 16 + 1)

/-- The starting cyclic offset that the code derives from a parent class
index p (src/main.ts lines 106-111): the last decimal digit of p
concatenated with "1" and parsed gives (p mod 10) * 10 + 1, and the loop
body adds a further 1 before j. -/
def startOf (p : Nat) : Nat := (p % 10) * 10 + 2

/-- The classes setFolderStyling is allowed to add by claim C6: rcs-item-k
for k in 1..16, or rcs-sub-item. -/
def AllowedClass (c : String) : Prop :=
  c = rcsSubItemStr ∨ ∃ k, 1 ≤ k ∧ k ≤ 16 ∧ c = rcsItemClass k

/-- Every class on the tree containing "rcs-item" is a well-formed
rcs-item-k, k in 1..16: the invariant the annotation passes maintain. -/
def GoodRcs (dom : List DomItem) : Prop :=
  ∀ it ∈ dom, ∀ c ∈ it.classes, jsIncludes c rcsItemStr = true →
    ∃ k, 1 ≤ k ∧ k ≤ 16 ∧ c = rcsItemClass k

/-- A DOM not yet annotated: no class of any tree item contains the
substring "rcs-item". -/
def NoRcs (dom : List DomItem) : Prop :=
  ∀ it ∈ dom, ∀ c ∈ it.classes, jsIncludes c rcsItemStr = false

/-- Item-wise growth of a DOM: same items in the same order, each keeping
its data-path and its class list up to appended classes satisfying
`AllowedClass`. -/
def DomGrows (d1 d2 : List DomItem) : Prop :=
  List.Forall₂
    (fun a b => b.path = a.path ∧
      ∃ added, b.classes = a.classes ++ added ∧ ∀ c ∈ added, AllowedClass c)
    d1 d2

/-- Decimal value of a digit string (proof-side decoder for Nat.repr). -/
def decDigits (cs : List Char) : Nat := cs.foldl (fun a c => a * 10 + (c.toNat - 48)) 0

/-- The first class of the parent element containing "rcs-item"
(src/main.ts lines 103-104). -/
def firstRcsClass (cs : List String) : Option String :=
  (cs.filter (fun c => jsIncludes c rcsItemStr)).head?

/-- Add each class of `F i` to the item for the i-th listed path, in order:
the common shape of the two annotation loops of setFolderStyling. -/
def enumAddPass (F : Nat → List String) (paths : List String) (dom : List DomItem) :
    List DomItem :=
  paths.enum.foldl (fun d pr => (F pr.1).foldl (fun d' c => domAddClass d' pr.2 c) d) dom

/-- The top-level loop (src/main.ts lines 84-88): the element of the i-th
sorted visible folder gains the class rcs-item-((i % 16) + 1). -/
def topLevelPass (folders : List String) (dom : List DomItem) : List DomItem :=
  enumAddPass (fun i => [rcsItemClass ((i % 16) + 1)]) folders dom

/-- Filtering and sorting of the root listing (src/main.ts lines 75-82):
drop folders starting with ".", then sort with the comparator
`(a, b) => a.localeCompare(b, undefined, {numeric: true, caseFirst: 'lower'})`.
The comparator is locale dependent and is abstracted as the boolean
parameter `cmp` (`cmp a b` meaning "a sorts no later than b");
Array.prototype.sort, a stable comparison sort, is modelled by the stable
insertion sort. -/
def visibleSorted (cmp : String → String → Bool) (listingRoot : List String) : List String :=
  List.insertionSort (fun a b => cmp a b = true)
    (listingRoot.filter (fun f => !(jsStartsWith f ".")))

/-- One iteration of the independent-folders loop (src/main.ts lines 94-117)
for the designated path `sub`. `listing p` models
`(await this.app.vault.adapter.list(p)).folders`, and `configDir` the
vault's config directory filtered out on line 96. -/
def subPassOne (listing : String → List String) (configDir : String) (dom : List DomItem)
    (sub : String) : List DomItem :=
  let ext := (listing sub).filter (fun f => f != configDir)
  let parentFolder := splitHead sub
  match domQuery dom parentFolder with
  | none => dom
  | some parentItem =>
    match firstRcsClass parentItem.classes with
    | none => dom
    | some cls =>
      enumAddPass (fun j => [subItemClass (newRcsIndex cls) j, rcsSubItemStr]) ext dom

/-- setFolderStyling (src/main.ts lines 72-119): the sorted top-level pass,
then one independent-group pass per entry of settings.folderList. -/
def setFolderStyling (listing : String → List String) (configDir : String)
    (cmp : String → String → Bool) (s : RainbowColoredSidebarSettings)
    (dom : List DomItem) : List DomItem :=
  let folders := visibleSorted cmp (listing "/")
  let dom1 := topLevelPass folders dom
  s.folderList.foldl (subPassOne listing configDir) dom1

/-! ### The debounced mutation observer (src/main.ts lines 130-150) -/

/-- The debounced observer callback as a discrete-event model: `ts` is the
ascending list of mutation times (ms). Each mutation clears the pending
timeout (lines 138-140) and schedules setFolderStyling 200ms later
(lines 141-143); a pending run fires when the next mutation comes no
earlier than its deadline, or when no further mutation comes. The result
lists the times at which setFolderStyling runs. -/
def debounceRuns : List Nat → List Nat
  | [] => []
  | [t] => [t + 200]
  | t1 :: t2 :: rest =>
    if t2 < t1 + 200 then debounceRuns (t2 :: rest)
    else (t1 + 200) :: debounceRuns (t2 :: rest)

/-! ### A concrete comparator for concrete scenarios -/

/-- Code-point order on character lists. -/
def cpLeL : List Char → List Char → Bool
  | [], _ => true
  | _ :: _, [] => false
  | a :: as, b :: bs => if a = b then cpLeL as bs else decide (a < b)

/-- Code-point order on strings: a representative total order used to
instantiate the comparator parameter in concrete scenarios. -/
def cpLe (a b : String) : Bool := cpLeL a.toList b.toList

/-! ### Basic lemmas about the DOM model -/

theorem classListAdd_self (cs : List String) (c : String) : c ∈ classListAdd cs c := by
  unfold classListAdd
  split
  · assumption
  · simp

theorem classListAdd_mono {cs : List String} {x : String} (h : x ∈ cs) (c : String) :
    x ∈ classListAdd cs c := by
  unfold classListAdd
  split
  · exact h
  · exact List.mem_append_left _ h

theorem classListAdd_eq_append (cs : List String) (c : String) :
    classListAdd cs c = cs ++ (if c ∈ cs then [] else [c]) := by
  unfold classListAdd
  split <;> simp_all

theorem mem_classListAdd {cs : List String} {x c : String} (h : x ∈ classListAdd cs c) :
    x ∈ cs ∨ x = c := by
  rw [classListAdd_eq_append] at h
  rcases List.mem_append.mp h with h1 | h1
  · exact Or.inl h1
  · right
    rcases Classical.em (c ∈ cs) with hc | hc <;> simp [hc] at h1
    exact h1

theorem domQuery_addClass_ne {q p : String} (h : ¬ q = p) (dom : List DomItem) (c : String) :
    domQuery (domAddClass dom p c) q = domQuery dom q := by
  induction dom with
  | nil => rfl
  | cons it rest ih =>
    have hpq : (p == q) = false := beq_eq_false_iff_ne.mpr fun hh => h hh.symm
    by_cases hp : it.path = p
    · have hq : (it.path == q) = false := by rw [hp]; exact hpq
      simp [domAddClass, domQuery, List.find?, hp, hq, hpq, h]
    · by_cases hq : it.path = q
      · simp [domAddClass, domQuery, List.find?, hp, hq, hpq, h]
      · have hq' : (it.path == q) = false := beq_eq_false_iff_ne.mpr hq
        simp only [domAddClass, domQuery, List.find?] at *
        simp [hp, hq', hpq, h, ih]

theorem domQuery_addClass_self (dom : List DomItem) (p c : String) :
    domQuery (domAddClass dom p c) p =
      (domQuery dom p).map (fun it => { it with classes := classListAdd it.classes c }) := by
  induction dom with
  | nil => rfl
  | cons it rest ih =>
    by_cases hp : it.path = p
    · simp [domAddClass, domQuery, List.find?, hp]
    · have hp' : ((it.path == p) = false) := by simp [hp]
      simp only [domAddClass, hp', if_false, domQuery, List.find?] at *
      simpa [hp'] using ih

theorem domClasses_addClass_ne {q p : String} (h : ¬ q = p) (dom : List DomItem) (c : String) :
    domClasses (domAddClass dom p c) q = domClasses dom q := by
  unfold domClasses
  rw [domQuery_addClass_ne h]

theorem domClasses_addClass_self {dom : List DomItem} {p : String}
    (h : (domQuery dom p).isSome) (c : String) :
    domClasses (domAddClass dom p c) p = classListAdd (domClasses dom p) c := by
  unfold domClasses
  rw [domQuery_addClass_self]
  cases hq : domQuery dom p with
  | some it => rfl
  | none => rw [hq] at h; simp at h

theorem isSome_domQuery_addClass (dom : List DomItem) (p c q : String) :
    (domQuery (domAddClass dom p c) q).isSome = (domQuery dom q).isSome := by
  by_cases h : q = p
  · subst h
    rw [domQuery_addClass_self]
    cases domQuery dom q <;> rfl
  · rw [domQuery_addClass_ne h]

theorem mem_domClasses_addClass {dom : List DomItem} {q x : String} (h : x ∈ domClasses dom q)
    (p c : String) : x ∈ domClasses (domAddClass dom p c) q := by
  by_cases hqp : q = p
  · subst hqp
    cases hq : domQuery dom q with
    | some it =>
      rw [domClasses_addClass_self (by rw [hq]; rfl) c]
      exact classListAdd_mono h c
    | none => unfold domClasses at h; rw [hq] at h; simp at h
  · rwa [domClasses_addClass_ne hqp]

/-! ### Lemmas about the annotation folds -/

theorem addClasses_query_ne {q p : String} (h : ¬ q = p) (cs : List String) (dom : List DomItem) :
    domQuery (cs.foldl (fun d c => domAddClass d p c) dom) q = domQuery dom q := by
  induction cs generalizing dom with
  | nil => rfl
  | cons c cs ih => rw [List.foldl_cons, ih, domQuery_addClass_ne h]

theorem addClasses_isSome (cs : List String) (p : String) (dom : List DomItem) (q : String) :
    (domQuery (cs.foldl (fun d c => domAddClass d p c) dom) q).isSome
      = (domQuery dom q).isSome := by
  induction cs generalizing dom with
  | nil => rfl
  | cons c cs ih => rw [List.foldl_cons, ih, isSome_domQuery_addClass]

theorem addClasses_mem {dom : List DomItem} {q x : String} (h : x ∈ domClasses dom q)
    (cs : List String) (p : String) :
    x ∈ domClasses (cs.foldl (fun d c => domAddClass d p c) dom) q := by
  induction cs generalizing dom with
  | nil => exact h
  | cons c cs ih => rw [List.foldl_cons]; exact ih (mem_domClasses_addClass h p c)

theorem addClasses_mem_self {dom : List DomItem} {p c : String} (hq : (domQuery dom p).isSome)
    {cs : List String} (hc : c ∈ cs) :
    c ∈ domClasses (cs.foldl (fun d c' => domAddClass d p c') dom) p := by
  induction cs generalizing dom with
  | nil => cases hc
  | cons c0 cs ih =>
    rw [List.foldl_cons]
    rcases List.mem_cons.mp hc with h1 | h1
    · subst h1
      apply addClasses_mem _ cs p
      rw [domClasses_addClass_self hq c]
      exact classListAdd_self _ c
    · exact ih (by rw [isSome_domQuery_addClass]; exact hq) h1

theorem passFold_isSome (F : Nat → List String) (pairs : List (Nat × String))
    (dom : List DomItem) (q : String) :
    (domQuery
        (pairs.foldl (fun d pr => (F pr.1).foldl (fun d' c => domAddClass d' pr.2 c) d) dom)
        q).isSome
      = (domQuery dom q).isSome := by
  induction pairs generalizing dom with
  | nil => rfl
  | cons pr pairs ih => rw [List.foldl_cons, ih, addClasses_isSome]

theorem passFold_mem (F : Nat → List String) {dom : List DomItem} {q x : String}
    (h : x ∈ domClasses dom q) (pairs : List (Nat × String)) :
    x ∈ domClasses
        (pairs.foldl (fun d pr => (F pr.1).foldl (fun d' c => domAddClass d' pr.2 c) d) dom)
        q := by
  induction pairs generalizing dom with
  | nil => exact h
  | cons pr pairs ih => rw [List.foldl_cons]; exact ih (addClasses_mem h (F pr.1) pr.2)

theorem passFold_query_ne (F : Nat → List String) {q : String} {pairs : List (Nat × String)}
    (hq : ∀ pr ∈ pairs, ¬ q = pr.2) (dom : List DomItem) :
    domQuery
        (pairs.foldl (fun d pr => (F pr.1).foldl (fun d' c => domAddClass d' pr.2 c) d) dom) q
      = domQuery dom q := by
  induction pairs generalizing dom with
  | nil => rfl
  | cons pr pairs ih =>
    rw [List.foldl_cons, ih (fun x hx => hq x (List.mem_cons_of_mem pr hx)),
      addClasses_query_ne (hq pr (List.mem_cons_self pr pairs))]

theorem passFold_mem_self (F : Nat → List String) {pairs : List (Nat × String)} {i : Nat}
    {p : String} (hmem : (i, p) ∈ pairs) {dom : List DomItem}
    (hq : (domQuery dom p).isSome) {c : String} (hc : c ∈ F i) :
    c ∈ domClasses
        (pairs.foldl (fun d pr => (F pr.1).foldl (fun d' c' => domAddClass d' pr.2 c') d) dom)
        p := by
  induction pairs generalizing dom with
  | nil => cases hmem
  | cons pr pairs ih =>
    rw [List.foldl_cons]
    rcases List.mem_cons.mp hmem with h1 | h1
    · rw [← h1]
      exact passFold_mem F (addClasses_mem_self hq hc) pairs
    · exact ih h1 (by rw [addClasses_isSome]; exact hq)

theorem enumAddPass_mem_self (F : Nat → List String) {paths : List String} {i : Nat}
    (h : i < paths.length) {dom : List DomItem}
    (hq : (domQuery dom paths[i]).isSome) {c : String} (hc : c ∈ F i) :
    c ∈ domClasses (enumAddPass F paths dom) paths[i] := by
  apply passFold_mem_self F _ hq hc
  have hlen : i < paths.enum.length := by rw [List.enum_length]; exact h
  have heq := List.getElem_enum paths i (h := hlen)
  rw [← heq]
  exact List.getElem_mem hlen

theorem enumAddPass_mem (F : Nat → List String) {dom : List DomItem} {q x : String}
    (h : x ∈ domClasses dom q) (paths : List String) :
    x ∈ domClasses (enumAddPass F paths dom) q :=
  passFold_mem F h paths.enum

theorem enumAddPass_isSome (F : Nat → List String) (paths : List String) (dom : List DomItem)
    (q : String) :
    (domQuery (enumAddPass F paths dom) q).isSome = (domQuery dom q).isSome :=
  passFold_isSome F paths.enum dom q

theorem enumAddPass_query_ne (F : Nat → List String) {q : String} {paths : List String}
    (hq : ¬ q ∈ paths) (dom : List DomItem) :
    domQuery (enumAddPass F paths dom) q = domQuery dom q := by
  apply passFold_query_ne F _ dom
  intro pr hpr hqe
  exact hq (by rw [hqe]; exact List.snd_mem_of_mem_enum hpr)

/-! ### Lemmas about the two styling passes -/

theorem subPassOne_mem {dom : List DomItem} {q x : String} (h : x ∈ domClasses dom q)
    (listing : String → List String) (configDir sub : String) :
    x ∈ domClasses (subPassOne listing configDir dom sub) q := by
  cases hpq : domQuery dom (splitHead sub) with
  | none => simpa [subPassOne, hpq] using h
  | some it =>
    cases hfc : firstRcsClass it.classes with
    | none => simpa [subPassOne, hpq, hfc] using h
    | some cls =>
      simp only [subPassOne, hpq, hfc]
      exact enumAddPass_mem _ h _

theorem subPassOne_isSome (listing : String → List String) (configDir sub : String)
    (dom : List DomItem) (q : String) :
    (domQuery (subPassOne listing configDir dom sub) q).isSome = (domQuery dom q).isSome := by
  cases hpq : domQuery dom (splitHead sub) with
  | none => simp [subPassOne, hpq]
  | some it =>
    cases hfc : firstRcsClass it.classes with
    | none => simp [subPassOne, hpq, hfc]
    | some cls =>
      simp only [subPassOne, hpq, hfc]
      exact enumAddPass_isSome _ _ dom q

theorem subFolds_mem {dom : List DomItem} {q x : String} (h : x ∈ domClasses dom q)
    (listing : String → List String) (configDir : String) (subs : List String) :
    x ∈ domClasses (subs.foldl (subPassOne listing configDir) dom) q := by
  induction subs generalizing dom with
  | nil => exact h
  | cons sub subs ih => rw [List.foldl_cons]; exact ih (subPassOne_mem h listing configDir sub)

theorem setFolderStyling_eq (listing : String → List String) (configDir : String)
    (cmp : String → String → Bool) (s : RainbowColoredSidebarSettings) (dom : List DomItem) :
    setFolderStyling listing configDir cmp s dom
      = s.folderList.foldl (subPassOne listing configDir)
          (topLevelPass (visibleSorted cmp (listing "/")) dom) := rfl

/-- C1: the i-th visible top-level folder, in sorted order, receives the
class index (i mod 16) + 1; every such index lies in 1..16, and positions
16 apart receive the same index. -/
theorem setFolderStyling_cyclic_assignment (listing : String → List String) (configDir : String)
    (cmp : String → String → Bool) (s : RainbowColoredSidebarSettings) (dom : List DomItem)
    (i : Nat) (h : i < (visibleSorted cmp (listing "/")).length)
    (hq : (domQuery dom (visibleSorted cmp (listing "/"))[i]).isSome) :
    rcsItemClass ((i % 16) + 1)
        ∈ domClasses (setFolderStyling listing configDir cmp s dom)
          (visibleSorted cmp (listing "/"))[i]
      ∧ 1 ≤ (i % 16) + 1 ∧ (i % 16) + 1 ≤ 16
      ∧ ((i + 16) % 16) + 1 = (i % 16) + 1 := by
  refine ⟨?_, by omega, by omega, by omega⟩
  rw [setFolderStyling_eq]
  apply subFolds_mem _ listing configDir s.folderList
  unfold topLevelPass
  exact enumAddPass_mem_self _ h hq (by simp)

/-- Witness for C1: in a vault listing ["beta", ".obsidian", "alpha"], the
sorted visible folders are ["alpha", "beta"], and "beta" (position 1)
receives rcs-item-2. -/
theorem setFolderStyling_cyclic_assignment_witness :
    rcsItemClass 2 ∈ domClasses
      (setFolderStyling
        (fun p => if p = "/" then ["beta", ".obsidian", "alpha"] else [])
        ".obsidian" cpLe
        { scheme := "csDefault", increaseContrast := false, folderList := [] }
        [⟨"alpha", []⟩, ⟨"beta", ["nav-folder"]⟩]) "beta" := by
  have h := setFolderStyling_cyclic_assignment
    (fun p => if p = "/" then ["beta", ".obsidian", "alpha"] else [])
    ".obsidian" cpLe
    { scheme := "csDefault", increaseContrast := false, folderList := [] }
    [⟨"alpha", []⟩, ⟨"beta", ["nav-folder"]⟩] 1 (by decide) (by decide)
  exact h.1

/-- C9: a top-level folder whose path begins with "." is skipped by the
top-level indexing pass — its element's classes are untouched — and the
sorted visible listing equals the one computed with all dotted folders
removed, so the remaining indices are as if the hidden folders were absent. -/
theorem topLevel_skips_hidden (cmp : String → String → Bool) (L : List String)
    (dom : List DomItem) (p : String) (hp : jsStartsWith p "." = true) :
    domClasses (topLevelPass (visibleSorted cmp L) dom) p = domClasses dom p
      ∧ visibleSorted cmp L
          = visibleSorted cmp (L.filter (fun f => !(jsStartsWith f "."))) := by
  constructor
  · have hnot : ¬ p ∈ visibleSorted cmp L := by
      intro hmem
      unfold visibleSorted at hmem
      rw [List.mem_insertionSort] at hmem
      have hf := List.of_mem_filter hmem
      rw [hp] at hf
      simp at hf
    unfold domClasses
    rw [topLevelPass, enumAddPass_query_ne _ hnot]
  · unfold visibleSorted
    congr 1
    rw [List.filter_filter]
    congr 1
    funext f
    cases jsStartsWith f "." <;> rfl

/-- Witness for C9: ".obsidian" keeps its classes through the top-level pass
over the listing ["a", ".obsidian"]. -/
theorem topLevel_skips_hidden_witness :
    domClasses
        (topLevelPass (visibleSorted cpLe ["a", ".obsidian"])
          [⟨".obsidian", ["cfg"]⟩, ⟨"a", []⟩]) ".obsidian"
      = ["cfg"] := by
  have h := topLevel_skips_hidden cpLe ["a", ".obsidian"]
    [⟨".obsidian", ["cfg"]⟩, ⟨"a", []⟩] ".obsidian" (by decide)
  rw [h.1]
  rfl

/-! ### The parent-derived offset (src/main.ts lines 98-115) -/

theorem toString_intOfNat (k : Nat) : toString ((k : Int)) = toString k := rfl

theorem newRcsIndex_rcsItemClass {p : Nat} (h1 : 1 ≤ p) (h2 : p ≤ 16) :
    newRcsIndex (rcsItemClass p) = some (((p % 10) * 10 + 1 : Nat) : Int) := by
  interval_cases p <;> decide

theorem subItemClass_ofNat (m j : Nat) :
    subItemClass (some ((m : Nat) : Int)) j = rcsItemClass ((m + 1 + j) % 16 + 1) := rfl

theorem subItemClass_startOf {p : Nat} (h1 : 1 ≤ p) (h2 : p ≤ 16) (j : Nat) :
    subItemClass (newRcsIndex (rcsItemClass p)) j = rcsItemClass ((startOf p + j) % 16 + 1) := by
  rw [newRcsIndex_rcsItemClass h1 h2, subItemClass_ofNat]
  have h : p % 10 * 10 + 1 + 1 + j = startOf p + j := by unfold startOf; omega
  rw [h]

/-- C3: when the (first path segment of the) designated folder carries class
index p, the j-th folder of the independent group receives the cyclic class
index ((start + j) mod 16) + 1 for the parent-derived start, together with
rcs-sub-item, and consecutive group members receive consecutive indices
modulo 16. -/
theorem subPass_parent_offset (listing : String → List String) (configDir sub : String)
    (dom : List DomItem) (p : Nat) (hp1 : 1 ≤ p) (hp16 : p ≤ 16)
    (it : DomItem) (hq : domQuery dom (splitHead sub) = some it)
    (hcls : firstRcsClass it.classes = some (rcsItemClass p))
    (j : Nat) (hj : j < ((listing sub).filter (fun f => f != configDir)).length)
    (hqj : (domQuery dom ((listing sub).filter (fun f => f != configDir))[j]).isSome) :
    rcsItemClass ((startOf p + j) % 16 + 1)
        ∈ domClasses (subPassOne listing configDir dom sub)
            ((listing sub).filter (fun f => f != configDir))[j]
      ∧ rcsSubItemStr
          ∈ domClasses (subPassOne listing configDir dom sub)
              ((listing sub).filter (fun f => f != configDir))[j]
      ∧ (startOf p + (j + 1)) % 16 + 1 = ((startOf p + j) % 16 + 1) % 16 + 1 := by
  refine ⟨?_, ?_, by omega⟩
  · have hmem := enumAddPass_mem_self
      (fun j' => [subItemClass (newRcsIndex (rcsItemClass p)) j', rcsSubItemStr])
      hj hqj (c := subItemClass (newRcsIndex (rcsItemClass p)) j) (by simp)
    rw [subItemClass_startOf hp1 hp16 j] at hmem
    simpa only [subPassOne, hq, hcls] using hmem
  · have hmem := enumAddPass_mem_self
      (fun j' => [subItemClass (newRcsIndex (rcsItemClass p)) j', rcsSubItemStr])
      hj hqj (c := rcsSubItemStr) (by simp)
    simpa only [subPassOne, hq, hcls] using hmem

/-- Witness for C3: parent "A" carries rcs-item-3, so start = 32 and the
second child "A/y" (j = 1) receives rcs-item-((32 + 1) mod 16 + 1) =
rcs-item-2 and rcs-sub-item. -/
theorem subPass_parent_offset_witness :
    rcsItemClass 2 ∈ domClasses
        (subPassOne (fun p => if p = "A" then ["A/x", "A/y"] else []) ".obsidian"
          [⟨"A", [rcsItemClass 3]⟩, ⟨"A/x", []⟩, ⟨"A/y", []⟩] "A")
        "A/y" := by
  have h := subPass_parent_offset (fun p => if p = "A" then ["A/x", "A/y"] else [])
    ".obsidian" "A" [⟨"A", [rcsItemClass 3]⟩, ⟨"A/x", []⟩, ⟨"A/y", []⟩]
    3 (by decide) (by decide) ⟨"A", [rcsItemClass 3]⟩ (by decide) (by decide)
    1 (by decide) (by decide)
  exact h.1

/-- Counterexample to C2 as stated: two vaults identical except that in the
second the parent "B" occupies position 1 instead of position 0 of the
top-level cycle (an unrelated sibling "A" is added); the first child "B/x"
of the designated folder "B" then receives rcs-item-13 in the first vault
and rcs-item-7 in the second, so the first child's class index depends on
the parent's position in the top-level color cycle. -/
theorem subColors_depend_on_parent_position :
    domClasses
        (setFolderStyling (fun p => if p = "/" then ["B"] else if p = "B" then ["B/x"] else [])
          ".obsidian" cpLe
          { scheme := "csDefault", increaseContrast := false, folderList := ["B"] }
          [⟨"B", []⟩, ⟨"B/x", []⟩]) "B/x"
      = [rcsItemClass 13, rcsSubItemStr]
    ∧ domClasses
        (setFolderStyling
          (fun p => if p = "/" then ["A", "B"] else if p = "B" then ["B/x"] else [])
          ".obsidian" cpLe
          { scheme := "csDefault", increaseContrast := false, folderList := ["B"] }
          [⟨"A", []⟩, ⟨"B", []⟩, ⟨"B/x", []⟩]) "B/x"
      = [rcsItemClass 7, rcsSubItemStr]
    ∧ rcsItemClass 13 ≠ rcsItemClass 7 :=
  ⟨by decide, by decide, by decide⟩

/-- Amended C2: the designated group's sequence does restart (it does not
continue the top-level cycle), but its first child's class index is derived
from the parent's class index p — it equals (startOf p mod 16) + 1, a
function of p alone — rather than being independent of the parent. -/
theorem subPass_first_child_parent_derived (listing : String → List String)
    (configDir sub : String) (dom : List DomItem) (p : Nat) (hp1 : 1 ≤ p) (hp16 : p ≤ 16)
    (it : DomItem) (hq : domQuery dom (splitHead sub) = some it)
    (hcls : firstRcsClass it.classes = some (rcsItemClass p))
    (h0 : 0 < ((listing sub).filter (fun f => f != configDir)).length)
    (hq0 : (domQuery dom ((listing sub).filter (fun f => f != configDir))[0]).isSome) :
    rcsItemClass (startOf p % 16 + 1)
      ∈ domClasses (subPassOne listing configDir dom sub)
          ((listing sub).filter (fun f => f != configDir))[0] := by
  have hmem := enumAddPass_mem_self
    (fun j' => [subItemClass (newRcsIndex (rcsItemClass p)) j', rcsSubItemStr])
    h0 hq0 (c := subItemClass (newRcsIndex (rcsItemClass p)) 0) (by simp)
  rw [subItemClass_startOf hp1 hp16 0] at hmem
  simpa only [subPassOne, hq, hcls] using hmem

/-- Witness for the amended C2: parent class index 3 gives the first child
(startOf 3 mod 16) + 1 = 1, i.e. rcs-item-1. -/
theorem subPass_first_child_witness :
    rcsItemClass 1 ∈ domClasses
        (subPassOne (fun p => if p = "B" then ["B/x"] else []) ".obsidian"
          [⟨"B", [rcsItemClass 3]⟩, ⟨"B/x", []⟩] "B")
        "B/x" := by
  have h := subPass_first_child_parent_derived (fun p => if p = "B" then ["B/x"] else [])
    ".obsidian" "B" [⟨"B", [rcsItemClass 3]⟩, ⟨"B/x", []⟩]
    3 (by decide) (by decide) ⟨"B", [rcsItemClass 3]⟩ (by decide) (by decide)
    (by decide) (by decide)
  exact h

/-! ### The code-point comparator is a total order -/

theorem cpLeL_total (as bs : List Char) : cpLeL as bs || cpLeL bs as := by
  induction as generalizing bs with
  | nil => simp [cpLeL]
  | cons a as ih =>
    cases bs with
    | nil => simp [cpLeL]
    | cons b bs =>
      by_cases hab : a = b
      · subst hab
        simpa [cpLeL] using ih bs
      · have hba : ¬ b = a := fun h => hab h.symm
        simp only [cpLeL, if_neg hab, if_neg hba]
        rcases lt_or_gt_of_ne hab with h | h
        · simp [h]
        · simp [h]

theorem cpLeL_trans {as bs cs : List Char} (h1 : cpLeL as bs = true) (h2 : cpLeL bs cs = true) :
    cpLeL as cs = true := by
  induction as generalizing bs cs with
  | nil => simp [cpLeL]
  | cons a as ih =>
    cases bs with
    | nil => simp [cpLeL] at h1
    | cons b bs =>
      cases cs with
      | nil => simp [cpLeL] at h2
      | cons c cs =>
        by_cases hab : a = b <;> by_cases hbc : b = c
        · subst hab; subst hbc
          simp only [cpLeL, if_pos rfl] at h1 h2 ⊢
          exact ih h1 h2
        · subst hab
          simp only [cpLeL, if_pos rfl] at h1
          simp only [cpLeL, if_neg hbc] at h2 ⊢
          exact h2
        · subst hbc
          simp only [cpLeL, if_neg hab] at h1
          simp only [cpLeL, if_pos rfl] at h2
          simpa only [cpLeL, if_neg hab] using h1
        · simp only [cpLeL, if_neg hab, decide_eq_true_eq] at h1
          simp only [cpLeL, if_neg hbc, decide_eq_true_eq] at h2
          have hac : a < c := lt_trans h1 h2
          have hne : ¬ a = c := ne_of_lt hac
          simp only [cpLeL, if_neg hne, decide_eq_true_eq]
          exact hac

theorem cpLeL_antisymm {as bs : List Char} (h1 : cpLeL as bs = true) (h2 : cpLeL bs as = true) :
    as = bs := by
  induction as generalizing bs with
  | nil =>
    cases bs with
    | nil => rfl
    | cons b bs => simp [cpLeL] at h2
  | cons a as ih =>
    cases bs with
    | nil => simp [cpLeL] at h1
    | cons b bs =>
      by_cases hab : a = b
      · subst hab
        simp only [cpLeL, if_pos rfl] at h1 h2
        rw [ih h1 h2]
      · have hba : ¬ b = a := fun h => hab h.symm
        simp only [cpLeL, if_neg hab, if_neg hba, decide_eq_true_eq] at h1 h2
        exact absurd h2 (lt_asymm h1)

theorem cpLe_total (a b : String) : cpLe a b || cpLe b a := cpLeL_total _ _

theorem cpLe_trans {a b c : String} (h1 : cpLe a b = true) (h2 : cpLe b c = true) :
    cpLe a c = true := cpLeL_trans h1 h2

theorem cpLe_antisymm {a b : String} (h1 : cpLe a b = true) (h2 : cpLe b a = true) : a = b := by
  have h := cpLeL_antisymm h1 h2
  exact String.ext h

/-! ### Determinism of the assignment (claim C4) -/

theorem subPassOne_congr {listing1 listing2 : String → List String} {sub : String}
    (h : listing1 sub = listing2 sub) (configDir : String) (dom : List DomItem) :
    subPassOne listing1 configDir dom sub = subPassOne listing2 configDir dom sub := by
  unfold subPassOne
  rw [h]

theorem subFolds_congr {listing1 listing2 : String → List String} (configDir : String)
    {subs : List String} (h : ∀ p ∈ subs, listing1 p = listing2 p) (dom : List DomItem) :
    subs.foldl (subPassOne listing1 configDir) dom
      = subs.foldl (subPassOne listing2 configDir) dom := by
  induction subs generalizing dom with
  | nil => rfl
  | cons sub subs ih =>
    rw [List.foldl_cons, List.foldl_cons,
      subPassOne_congr (h sub (List.mem_cons_self sub subs)) configDir dom]
    exact ih (fun p hp => h p (List.mem_cons_of_mem sub hp)) _

/-- Counterexample to C4 as stated: the two vault adapters list the same
set of folders at every path (they differ only in the enumeration order of
the children of the designated folder "A"), the settings agree, yet the
run assigns "A/x" the class rcs-item-13 under one enumeration and
rcs-item-14 under the other: the indexer sorts only the root listing, not
the designated sub-folder listings. -/
theorem assignment_depends_on_enumeration :
    (["A/x", "A/y"] : List String).Perm ["A/y", "A/x"]
    ∧ domClasses
        (setFolderStyling
          (fun p => if p = "/" then ["A"] else if p = "A" then ["A/x", "A/y"] else [])
          ".obsidian" cpLe
          { scheme := "csDefault", increaseContrast := false, folderList := ["A"] }
          [⟨"A", []⟩, ⟨"A/x", []⟩, ⟨"A/y", []⟩]) "A/x"
      = [rcsItemClass 13, rcsSubItemStr]
    ∧ domClasses
        (setFolderStyling
          (fun p => if p = "/" then ["A"] else if p = "A" then ["A/y", "A/x"] else [])
          ".obsidian" cpLe
          { scheme := "csDefault", increaseContrast := false, folderList := ["A"] }
          [⟨"A", []⟩, ⟨"A/x", []⟩, ⟨"A/y", []⟩]) "A/x"
      = [rcsItemClass 14, rcsSubItemStr]
    ∧ rcsItemClass 13 ≠ rcsItemClass 14 :=
  ⟨by decide, by decide, by decide, by decide⟩

/-- Amended C4: with the comparator a total order, the assignment is
deterministic in the top-level listing — any enumeration of the root folders
yields the same result — and in the designated sub-folder listings as long
as those are enumerated identically (the code sorts only the root listing). -/
theorem setFolderStyling_deterministic (cmp : String → String → Bool)
    (htotal : ∀ a b, cmp a b || cmp b a)
    (htrans : ∀ a b c, cmp a b = true → cmp b c = true → cmp a c = true)
    (hanti : ∀ a b, cmp a b = true → cmp b a = true → a = b)
    (listing1 listing2 : String → List String) (configDir : String)
    (s : RainbowColoredSidebarSettings) (dom : List DomItem)
    (hroot : (listing1 "/").Perm (listing2 "/"))
    (hsubs : ∀ p ∈ s.folderList, listing1 p = listing2 p) :
    setFolderStyling listing1 configDir cmp s dom
      = setFolderStyling listing2 configDir cmp s dom := by
  haveI htot : IsTotal String (fun a b => cmp a b = true) :=
    ⟨fun a b => by simpa using htotal a b⟩
  haveI htr : IsTrans String (fun a b => cmp a b = true) := ⟨fun a b c => htrans a b c⟩
  haveI hant : IsAntisymm String (fun a b => cmp a b = true) := ⟨fun a b => hanti a b⟩
  have hsorted : visibleSorted cmp (listing1 "/") = visibleSorted cmp (listing2 "/") := by
    unfold visibleSorted
    apply List.eq_of_perm_of_sorted (r := fun a b => cmp a b = true)
    · exact (List.perm_insertionSort _ _).trans
        ((hroot.filter _).trans (List.perm_insertionSort _ _).symm)
    · exact List.sorted_insertionSort _ _
    · exact List.sorted_insertionSort _ _
  rw [setFolderStyling_eq, setFolderStyling_eq, hsorted]
  exact subFolds_congr configDir hsubs _

/-- Witness for the amended C4: two enumerations of the same root listing
give identical results. -/
theorem setFolderStyling_deterministic_witness :
    setFolderStyling (fun p => if p = "/" then ["B", "A"] else []) ".obsidian" cpLe
        { scheme := "csDefault", increaseContrast := false, folderList := [] }
        [⟨"A", []⟩, ⟨"B", []⟩]
      = setFolderStyling (fun p => if p = "/" then ["A", "B"] else []) ".obsidian" cpLe
        { scheme := "csDefault", increaseContrast := false, folderList := [] }
        [⟨"A", []⟩, ⟨"B", []⟩] := by
  apply setFolderStyling_deterministic cpLe cpLe_total
    (fun a b c h1 h2 => cpLe_trans h1 h2) (fun a b h1 h2 => cpLe_antisymm h1 h2)
  · decide
  · intro p hp
    cases hp

/-! ### The debounce property (claim C5) -/

/-- C5: any nonempty burst of mutations causes at least one re-run, and when
consecutive mutations are each less than 200ms apart the burst triggers
exactly one re-run, scheduled 200ms after the last mutation (every earlier
pending run is cancelled). -/
theorem debounce_single_run (ts : List Nat) (h : ts ≠ []) :
    debounceRuns ts ≠ []
      ∧ (List.Chain' (fun a b => b < a + 200) ts →
          debounceRuns ts = [ts.getLast h + 200]) := by
  induction ts with
  | nil => exact absurd rfl h
  | cons t ts ih =>
    cases ts with
    | nil => exact ⟨by simp [debounceRuns], fun _ => by simp [debounceRuns]⟩
    | cons t2 rest =>
      refine ⟨?_, ?_⟩
      · by_cases hlt : t2 < t + 200
        · simpa [debounceRuns, hlt] using (ih (by simp)).1
        · simp [debounceRuns, hlt]
      · intro hch
        rw [List.chain'_cons] at hch
        have hrun : debounceRuns (t :: t2 :: rest) = debounceRuns (t2 :: rest) := by
          simp [debounceRuns, hch.1]
        have hl : (t :: t2 :: rest).getLast h = (t2 :: rest).getLast (by simp) :=
          List.getLast_cons (by simp)
        rw [hrun, (ih (by simp)).2 hch.2, hl]

/-- Witness for C5: mutations at 0, 100 and 150ms yield the single run at
350ms. -/
theorem debounce_single_run_witness :
    debounceRuns [0, 100, 150] ≠ [] ∧ debounceRuns [0, 100, 150] = [350] := by
  have h := debounce_single_run [0, 100, 150] (by decide)
  exact ⟨h.1, h.2 (by simp [List.chain'_cons])⟩

/-! ### Totality of the loaded settings (claim C10) -/

/-- C10: loadSettings yields a total settings object: with no stored data it
equals the defaults (scheme "csDefault", increaseContrast false, empty
folder list), and each field of a stored object overrides its default
exactly when present. -/
theorem loadSettings_total :
    loadSettings none = DEFAULT_SETTINGS
      ∧ DEFAULT_SETTINGS.scheme = "csDefault"
      ∧ DEFAULT_SETTINGS.increaseContrast = false
      ∧ DEFAULT_SETTINGS.folderList = []
      ∧ ∀ d : StoredSettings,
          (loadSettings (some d)).scheme = d.scheme.getD "csDefault"
          ∧ (loadSettings (some d)).increaseContrast = d.increaseContrast.getD false
          ∧ (loadSettings (some d)).folderList = d.folderList.getD [] :=
  ⟨rfl, rfl, rfl, rfl, fun _ => ⟨rfl, rfl, rfl⟩⟩

/-! ### Injectivity of the printed numerals in the generated names -/

theorem digitChar_val {k : Nat} (h : k < 10) : (Nat.digitChar k).toNat - 48 = k := by
  interval_cases k <;> decide

theorem toDigitsCore_append (b : Nat) (fuel : Nat) : ∀ (n : Nat) (ds : List Char),
    Nat.toDigitsCore b fuel n ds = Nat.toDigitsCore b fuel n [] ++ ds := by
  induction fuel with
  | zero => intro n ds; rfl
  | succ f ih =>
    intro n ds
    simp only [Nat.toDigitsCore]
    by_cases h : n / b = 0
    · simp [h]
    · simp only [h, if_false]
      rw [ih (n / b), ih (n / b) [Nat.digitChar (n % b)], List.append_assoc]
      rfl

theorem toDigitsCore_fuel {b : Nat} (hb : 2 ≤ b) : ∀ (n f1 f2 : Nat), n < f1 → n < f2 →
    Nat.toDigitsCore b f1 n [] = Nat.toDigitsCore b f2 n [] := by
  intro n
  induction n using Nat.strong_induction_on with
  | _ n ih =>
    intro f1 f2 h1 h2
    cases f1 with
    | zero => omega
    | succ g1 =>
      cases f2 with
      | zero => omega
      | succ g2 =>
        simp only [Nat.toDigitsCore]
        by_cases h : n / b = 0
        · simp [h]
        · simp only [h, if_false]
          have hn : 0 < n := by
            rcases Nat.eq_zero_or_pos n with h0 | h0
            · subst h0; simp at h
            · exact h0
          have hdiv : n / b < n := Nat.div_lt_self hn (by omega)
          rw [toDigitsCore_append b g1, toDigitsCore_append b g2]
          rw [ih (n / b) hdiv g1 g2 (by omega) (by omega)]

theorem toDigits_ten_eq (n : Nat) :
    Nat.toDigits 10 n =
      if n < 10 then [Nat.digitChar n]
      else Nat.toDigits 10 (n / 10) ++ [Nat.digitChar (n % 10)] := by
  unfold Nat.toDigits
  simp only [Nat.toDigitsCore]
  by_cases h : n / 10 = 0
  · have h10 : n < 10 := by omega
    simp [h, h10, Nat.mod_eq_of_lt h10]
  · have h10 : ¬ n < 10 := by omega
    simp only [h, if_false, h10]
    rw [toDigitsCore_append]
    congr 1
    exact toDigitsCore_fuel (by omega) (n / 10) n (n / 10 + 1) (by omega) (by omega)

theorem decDigits_append (cs : List Char) (c : Char) :
    decDigits (cs ++ [c]) = decDigits cs * 10 + (c.toNat - 48) := by
  unfold decDigits
  rw [List.foldl_append]
  rfl

theorem decDigits_toDigits (n : Nat) : decDigits (Nat.toDigits 10 n) = n := by
  induction n using Nat.strong_induction_on with
  | _ n ih =>
    rw [toDigits_ten_eq]
    by_cases h : n < 10
    · simp only [h, if_true]
      unfold decDigits
      simp [digitChar_val h]
    · simp only [h, if_false]
      rw [decDigits_append, ih (n / 10) (Nat.div_lt_self (by omega) (by omega)),
        digitChar_val (Nat.mod_lt n (by omega))]
      omega

theorem natRepr_inj {m n : Nat} (h : Nat.repr m = Nat.repr n) : m = n := by
  have hd : Nat.toDigits 10 m = Nat.toDigits 10 n := congrArg String.data h
  calc m = decDigits (Nat.toDigits 10 m) := (decDigits_toDigits m).symm
    _ = decDigits (Nat.toDigits 10 n) := by rw [hd]
    _ = n := decDigits_toDigits n

theorem rcsColorVar_inj {j k : Nat} (h : rcsColorVar j = rcsColorVar k) : j = k := by
  unfold rcsColorVar at h
  have hdata := congrArg String.data h
  simp only [String.data_append] at hdata
  have htail := List.append_cancel_left hdata
  exact natRepr_inj (String.ext htail)

/-! ### Lemmas about the (name, value) stores -/

theorem getEntry_setEntry_self (ps : List (String × String)) (n v : String) :
    getEntry (setEntry ps n v) n = some v := by
  induction ps with
  | nil => simp [setEntry, getEntry, List.find?]
  | cons p rest ih =>
    obtain ⟨m, w⟩ := p
    by_cases h : m = n
    · simp [setEntry, getEntry, List.find?, h]
    · have hb : (m == n) = false := beq_eq_false_iff_ne.mpr h
      simp only [setEntry, if_neg h, getEntry, List.find?, hb]
      simpa [getEntry] using ih

theorem getEntry_setEntry_ne (ps : List (String × String)) {m n : String} (h : ¬ m = n)
    (v : String) : getEntry (setEntry ps n v) m = getEntry ps m := by
  induction ps with
  | nil =>
    have hb : (n == m) = false := beq_eq_false_iff_ne.mpr fun hh => h hh.symm
    simp [setEntry, getEntry, List.find?, hb]
  | cons p rest ih =>
    obtain ⟨a, b⟩ := p
    by_cases ha : a = n
    · subst ha
      have hb : (a == m) = false := beq_eq_false_iff_ne.mpr fun hh => h hh.symm
      simp [setEntry, getEntry, List.find?, hb]
    · have hs : setEntry ((a, b) :: rest) n v = (a, b) :: setEntry rest n v := by
        simp [setEntry, ha]
      rw [hs]
      by_cases ham : a = m
      · simp [getEntry, List.find?, ham]
      · have hb1 : (a == m) = false := beq_eq_false_iff_ne.mpr ham
        simp only [getEntry, List.find?, hb1]
        simpa [getEntry] using ih

theorem getEntry_removeEntry_self (ps : List (String × String)) (n : String) :
    getEntry (removeEntry ps n) n = none := by
  unfold getEntry removeEntry
  cases hf : (ps.filter (fun p => p.1 != n)).find? (fun p => p.1 == n) with
  | none => rfl
  | some p =>
    have h1 := List.find?_some hf
    have h2 := List.of_mem_filter (List.mem_of_find?_eq_some hf)
    rw [beq_iff_eq] at h1
    rw [h1] at h2
    simp at h2

theorem getEntry_removeEntry_ne (ps : List (String × String)) {m n : String} (h : ¬ m = n) :
    getEntry (removeEntry ps n) m = getEntry ps m := by
  induction ps with
  | nil => rfl
  | cons p rest ih =>
    obtain ⟨a, b⟩ := p
    by_cases ha : a = n
    · subst ha
      have hb : (a == m) = false := beq_eq_false_iff_ne.mpr fun hh => h hh.symm
      have hr : removeEntry ((a, b) :: rest) a = removeEntry rest a := by
        simp [removeEntry, List.filter]
      rw [hr, ih]
      simp [getEntry, List.find?, hb]
    · have hane : (a != n) = true := by simp [ha]
      have hr : removeEntry ((a, b) :: rest) n = (a, b) :: removeEntry rest n := by
        simp [removeEntry, List.filter, hane]
      rw [hr]
      by_cases ham : a = m
      · simp [getEntry, List.find?, ham]
      · have hb1 : (a == m) = false := beq_eq_false_iff_ne.mpr ham
        simp only [getEntry, List.find?, hb1]
        simpa [getEntry] using ih

/-- The fold of src/main.ts lines 61-63 over an enumerated suffix of the
color list: position i (0-based, counted from s0) defines --rcs-color-(i+1),
and no other property is touched. -/
theorem setColors_from (colors : List String) : ∀ (s0 : Nat) (ps : List (String × String)),
    (∀ k, s0 + 1 ≤ k → k ≤ s0 + colors.length →
        getEntry ((List.enumFrom s0 colors).foldl
            (fun ps' pr => setEntry ps' (rcsColorVar (pr.1 + 1)) pr.2) ps)
          (rcsColorVar k)
          = colors[k - 1 - s0]?)
    ∧ (∀ name, (∀ k, s0 + 1 ≤ k → k ≤ s0 + colors.length → name ≠ rcsColorVar k) →
        getEntry ((List.enumFrom s0 colors).foldl
            (fun ps' pr => setEntry ps' (rcsColorVar (pr.1 + 1)) pr.2) ps)
          name
          = getEntry ps name) := by
  induction colors with
  | nil =>
    intro s0 ps
    constructor
    · intro k hk1 hk2
      rw [List.length_nil] at hk2
      omega
    · intro name _
      rfl
  | cons c rest ih =>
    intro s0 ps
    constructor
    · intro k hk1 hk2
      rw [List.length_cons] at hk2
      rw [show List.enumFrom s0 (c :: rest) = (s0, c) :: List.enumFrom (s0 + 1) rest from rfl,
        List.foldl_cons]
      by_cases hk : k = s0 + 1
      · subst hk
        have hother := (ih (s0 + 1) (setEntry ps (rcsColorVar (s0 + 1)) c)).2
          (rcsColorVar (s0 + 1))
          (fun k' hk1' hk2' heq => by
            have hkk : s0 + 1 = k' := rcsColorVar_inj heq
            omega)
        rw [hother, getEntry_setEntry_self]
        simp
      · have hfold := (ih (s0 + 1) (setEntry ps (rcsColorVar (s0 + 1)) c)).1 k
          (by omega) (by omega)
        rw [hfold]
        have hidx : k - 1 - s0 = (k - 1 - (s0 + 1)) + 1 := by omega
        rw [hidx, List.getElem?_cons_succ]
    · intro name hname
      rw [List.length_cons] at hname
      rw [show List.enumFrom s0 (c :: rest) = (s0, c) :: List.enumFrom (s0 + 1) rest from rfl,
        List.foldl_cons]
      have h2 := (ih (s0 + 1) (setEntry ps (rcsColorVar (s0 + 1)) c)).2 name
        (fun k' hk1' hk2' => hname k' (by omega) (by omega))
      rw [h2, getEntry_setEntry_ne _ (hname (s0 + 1) (by omega) (by omega)) _]

theorem setColorScheme_styleProps (schemes : String → List String)
    (s : RainbowColoredSidebarSettings) (root : DocumentRoot) :
    (setColorScheme schemes s root).styleProps
      = (List.enumFrom 0 (schemes s.scheme)).foldl
          (fun ps' pr => setEntry ps' (rcsColorVar (pr.1 + 1)) pr.2) root.styleProps := by
  unfold setColorScheme
  cases s.increaseContrast <;> rfl

theorem setColorScheme_attrs (schemes : String → List String)
    (s : RainbowColoredSidebarSettings) (root : DocumentRoot) :
    (setColorScheme schemes s root).attrs
      = if s.increaseContrast then setEntry root.attrs "data-rcs-a11y" "1"
        else removeEntry root.attrs "data-rcs-a11y" := by
  unfold setColorScheme
  cases s.increaseContrast <;> rfl

/-- C7: applying a scheme defines --rcs-color-k as the k-th color of the
scheme's ordered list for each k from 1 to its length, and no other style
property (in particular no other --rcs-color variable) is changed by the
run. -/
theorem setColorScheme_defines_vars (schemes : String → List String)
    (s : RainbowColoredSidebarSettings) (root : DocumentRoot) :
    (∀ k, 1 ≤ k → k ≤ (schemes s.scheme).length →
        getEntry (setColorScheme schemes s root).styleProps (rcsColorVar k)
          = (schemes s.scheme)[k - 1]?)
    ∧ ∀ name, (∀ k, 1 ≤ k → k ≤ (schemes s.scheme).length → name ≠ rcsColorVar k) →
        getEntry (setColorScheme schemes s root).styleProps name
          = getEntry root.styleProps name := by
  constructor
  · intro k h1 h2
    rw [setColorScheme_styleProps]
    have h := (setColors_from (schemes s.scheme) 0 root.styleProps).1 k (by omega) (by omega)
    simpa using h
  · intro name hname
    rw [setColorScheme_styleProps]
    exact (setColors_from (schemes s.scheme) 0 root.styleProps).2 name
      (fun k hk1 hk2 => hname k (by omega) (by omega))

/-- Witness for C7: a two-color scheme defines --rcs-color-2 as its second
color and leaves an unrelated property alone. -/
theorem setColorScheme_defines_vars_witness :
    getEntry (setColorScheme (fun _ => ["red", "green"])
        { scheme := "csDefault", increaseContrast := false, folderList := [] }
        ⟨[("margin", "0")], []⟩).styleProps (rcsColorVar 2)
      = some "green"
    ∧ getEntry (setColorScheme (fun _ => ["red", "green"])
        { scheme := "csDefault", increaseContrast := false, folderList := [] }
        ⟨[("margin", "0")], []⟩).styleProps "margin"
      = some "0" := by
  have h := setColorScheme_defines_vars (fun _ => ["red", "green"])
    { scheme := "csDefault", increaseContrast := false, folderList := [] }
    ⟨[("margin", "0")], []⟩
  constructor
  · exact h.1 2 (by decide) (by decide)
  · have h2 := h.2 "margin" (fun k hk1 hk2 heq => by
      simp at hk2
      interval_cases k <;> exact absurd heq (by decide))
    rw [h2]
    rfl

/-- C8: after setColorScheme the root carries data-rcs-a11y exactly when
increaseContrast is set; re-applying with the setting toggled flips that
attribute and changes nothing else (other attributes and all style
properties keep their values). -/
theorem setColorScheme_a11y_toggle (schemes : String → List String)
    (s : RainbowColoredSidebarSettings) (root : DocumentRoot) :
    ((getEntry (setColorScheme schemes s root).attrs "data-rcs-a11y").isSome
        = s.increaseContrast)
    ∧ ((getEntry (setColorScheme schemes { s with increaseContrast := !s.increaseContrast }
          (setColorScheme schemes s root)).attrs "data-rcs-a11y").isSome
        = !s.increaseContrast)
    ∧ (∀ m, m ≠ "data-rcs-a11y" →
        getEntry (setColorScheme schemes { s with increaseContrast := !s.increaseContrast }
            (setColorScheme schemes s root)).attrs m
          = getEntry (setColorScheme schemes s root).attrs m)
    ∧ ∀ name,
        getEntry (setColorScheme schemes { s with increaseContrast := !s.increaseContrast }
            (setColorScheme schemes s root)).styleProps name
          = getEntry (setColorScheme schemes s root).styleProps name := by
  have hgen : ∀ (s' : RainbowColoredSidebarSettings) (r' : DocumentRoot),
      (getEntry (setColorScheme schemes s' r').attrs "data-rcs-a11y").isSome
        = s'.increaseContrast := by
    intro s' r'
    rw [setColorScheme_attrs]
    cases h : s'.increaseContrast
    · simp [getEntry_removeEntry_self]
    · simp [getEntry_setEntry_self]
  refine ⟨hgen s root, hgen _ _, ?_, ?_⟩
  · intro m hm
    rw [setColorScheme_attrs]
    cases h : s.increaseContrast
    · simp only [h, Bool.not_false, if_true]
      exact getEntry_setEntry_ne _ hm _
    · simp only [h, Bool.not_true, if_false]
      exact getEntry_removeEntry_ne _ hm
  · intro name
    by_cases hvar : ∃ k, 1 ≤ k ∧ k ≤ (schemes s.scheme).length ∧ name = rcsColorVar k
    · obtain ⟨k, hk1, hk2, rfl⟩ := hvar
      rw [setColorScheme_styleProps, setColorScheme_styleProps]
      have ha := (setColors_from (schemes s.scheme) 0
        (setColorScheme schemes s root).styleProps).1 k (by omega) (by omega)
      have hb := (setColors_from (schemes s.scheme) 0 root.styleProps).1 k
        (by omega) (by omega)
      rw [setColorScheme_styleProps] at ha
      rw [ha, ← hb]
    · push_neg at hvar
      rw [setColorScheme_styleProps]
      exact (setColors_from (schemes s.scheme) 0
        (setColorScheme schemes s root).styleProps).2 name
        (fun k hk1 hk2 => hvar k (by omega) (by omega))

/-- Witness for C8: with increaseContrast set, the attribute is present, and
toggling removes it while keeping other attributes. -/
theorem setColorScheme_a11y_toggle_witness :
    ((getEntry (setColorScheme (fun _ => ["red"])
        { scheme := "csDefault", increaseContrast := true, folderList := [] }
        ⟨[], [("lang", "en")]⟩).attrs "data-rcs-a11y").isSome = true)
    ∧ getEntry (setColorScheme (fun _ => ["red"])
          { scheme := "csDefault", increaseContrast := false, folderList := [] }
          (setColorScheme (fun _ => ["red"])
            { scheme := "csDefault", increaseContrast := true, folderList := [] }
            ⟨[], [("lang", "en")]⟩)).attrs "lang"
      = some "en" := by
  have h := setColorScheme_a11y_toggle (fun _ => ["red"])
    { scheme := "csDefault", increaseContrast := true, folderList := [] }
    ⟨[], [("lang", "en")]⟩
  have h3 := h.2.2.1 "lang" (by decide)
  exact ⟨h.1, h3.trans (by decide)⟩

/-! ### The frame property of setFolderStyling (claim C6) -/

theorem noRcs_goodRcs {dom : List DomItem} (h : NoRcs dom) : GoodRcs dom := by
  intro it hit c hc hinc
  rw [h it hit c hc] at hinc
  cases hinc

theorem mem_domAddClass {dom : List DomItem} {p c : String} {it' : DomItem}
    (h : it' ∈ domAddClass dom p c) :
    it' ∈ dom ∨ ∃ it, it ∈ dom ∧ it' = { it with classes := classListAdd it.classes c } := by
  induction dom with
  | nil => cases h
  | cons it rest ih =>
    by_cases hp : it.path = p
    · rw [show domAddClass (it :: rest) p c
          = { it with classes := classListAdd it.classes c } :: rest from by
        simp [domAddClass, hp]] at h
      rcases List.mem_cons.mp h with h1 | h1
      · exact Or.inr ⟨it, List.mem_cons_self it rest, h1⟩
      · exact Or.inl (List.mem_cons_of_mem it h1)
    · rw [show domAddClass (it :: rest) p c = it :: domAddClass rest p c from by
        simp [domAddClass, hp]] at h
      rcases List.mem_cons.mp h with h1 | h1
      · exact Or.inl (by rw [h1]; exact List.mem_cons_self it rest)
      · rcases ih h1 with h2 | ⟨it0, hit0, heq⟩
        · exact Or.inl (List.mem_cons_of_mem it h2)
        · exact Or.inr ⟨it0, List.mem_cons_of_mem it hit0, heq⟩

theorem goodRcs_addClass {dom : List DomItem} (hg : GoodRcs dom) {c : String}
    (hc : AllowedClass c) (p : String) : GoodRcs (domAddClass dom p c) := by
  intro it' hit' c' hc' hinc
  rcases mem_domAddClass hit' with h | ⟨it, hit, heq⟩
  · exact hg it' h c' hc' hinc
  · rw [heq] at hc'
    rcases mem_classListAdd hc' with h1 | h1
    · exact hg it hit c' h1 hinc
    · rw [h1] at hinc ⊢
      rcases hc with h2 | ⟨k, hk1, hk2, h3⟩
      · rw [h2] at hinc
        exact absurd hinc (by decide)
      · exact ⟨k, hk1, hk2, h3⟩

theorem domGrows_refl (dom : List DomItem) : DomGrows dom dom := by
  induction dom with
  | nil => exact List.Forall₂.nil
  | cons it rest ih =>
    exact List.Forall₂.cons
      ⟨rfl, [], (List.append_nil _).symm, fun c hc => absurd hc (List.not_mem_nil c)⟩ ih

theorem domGrows_trans {d1 d2 d3 : List DomItem} (h12 : DomGrows d1 d2)
    (h23 : DomGrows d2 d3) : DomGrows d1 d3 := by
  induction h12 generalizing d3 with
  | nil => cases h23; exact List.Forall₂.nil
  | cons hr hrest ih =>
    cases h23 with
    | cons hr' hrest' =>
      refine List.Forall₂.cons ?_ (ih hrest')
      obtain ⟨hp, added1, hcl1, hall1⟩ := hr
      obtain ⟨hp', added2, hcl2, hall2⟩ := hr'
      refine ⟨hp'.trans hp, added1 ++ added2, ?_, ?_⟩
      · rw [hcl2, hcl1, List.append_assoc]
      · intro c hc
        rcases List.mem_append.mp hc with h | h
        · exact hall1 c h
        · exact hall2 c h

theorem domGrows_addClass {c : String} (hc : AllowedClass c) (dom : List DomItem)
    (p : String) : DomGrows dom (domAddClass dom p c) := by
  induction dom with
  | nil => exact List.Forall₂.nil
  | cons it rest ih =>
    by_cases hp : it.path = p
    · rw [show domAddClass (it :: rest) p c
          = { it with classes := classListAdd it.classes c } :: rest from by
        simp [domAddClass, hp]]
      refine List.Forall₂.cons ?_ (domGrows_refl rest)
      by_cases hmem : c ∈ it.classes
      · exact ⟨rfl, [], by rw [classListAdd_eq_append, if_pos hmem],
          fun c' hc' => absurd hc' (List.not_mem_nil _)⟩
      · refine ⟨rfl, [c], by rw [classListAdd_eq_append, if_neg hmem], fun c' hc' => ?_⟩
        rw [List.mem_singleton.mp hc']
        exact hc
    · rw [show domAddClass (it :: rest) p c = it :: domAddClass rest p c from by
        simp [domAddClass, hp]]
      exact List.Forall₂.cons
        ⟨rfl, [], (List.append_nil _).symm, fun c' hc' => absurd hc' (List.not_mem_nil _)⟩ ih

theorem domGrows_addClass_step {dom0 d : List DomItem} (hgr : DomGrows dom0 d) {c : String}
    (hc : AllowedClass c) (p : String) : DomGrows dom0 (domAddClass d p c) :=
  domGrows_trans hgr (domGrows_addClass hc d p)

theorem addClasses_good_grows {dom0 d : List DomItem} (hg : GoodRcs d)
    (hgr : DomGrows dom0 d) {cs : List String} (hcs : ∀ c ∈ cs, AllowedClass c) (p : String) :
    GoodRcs (cs.foldl (fun d' c => domAddClass d' p c) d)
      ∧ DomGrows dom0 (cs.foldl (fun d' c => domAddClass d' p c) d) := by
  induction cs generalizing d with
  | nil => exact ⟨hg, hgr⟩
  | cons c cs ih =>
    rw [List.foldl_cons]
    exact ih (goodRcs_addClass hg (hcs c (List.mem_cons_self c cs)) p)
      (domGrows_addClass_step hgr (hcs c (List.mem_cons_self c cs)) p)
      (fun c' hc' => hcs c' (List.mem_cons_of_mem c hc'))

theorem passFold_good_grows (F : Nat → List String) (hF : ∀ i, ∀ c ∈ F i, AllowedClass c)
    (pairs : List (Nat × String)) {dom0 d : List DomItem} (hg : GoodRcs d)
    (hgr : DomGrows dom0 d) :
    GoodRcs (pairs.foldl (fun d' pr => (F pr.1).foldl (fun d'' c => domAddClass d'' pr.2 c) d') d)
      ∧ DomGrows dom0
          (pairs.foldl (fun d' pr => (F pr.1).foldl (fun d'' c => domAddClass d'' pr.2 c) d') d) := by
  induction pairs generalizing d with
  | nil => exact ⟨hg, hgr⟩
  | cons pr pairs ih =>
    rw [List.foldl_cons]
    obtain ⟨hg1, hgr1⟩ := addClasses_good_grows hg hgr (fun c hc => hF pr.1 c hc) pr.2
    exact ih hg1 hgr1

theorem enumAddPass_good_grows (F : Nat → List String) (hF : ∀ i, ∀ c ∈ F i, AllowedClass c)
    (paths : List String) {dom0 d : List DomItem} (hg : GoodRcs d) (hgr : DomGrows dom0 d) :
    GoodRcs (enumAddPass F paths d) ∧ DomGrows dom0 (enumAddPass F paths d) :=
  passFold_good_grows F hF paths.enum hg hgr

theorem firstRcsClass_spec {cs : List String} {cls : String}
    (h : firstRcsClass cs = some cls) :
    cls ∈ cs ∧ jsIncludes cls rcsItemStr = true := by
  unfold firstRcsClass at h
  cases hl : cs.filter (fun c => jsIncludes c rcsItemStr) with
  | nil => rw [hl] at h; cases h
  | cons a t =>
    rw [hl] at h
    have ha : a = cls := Option.some.inj h
    have hmem : cls ∈ cs.filter (fun c => jsIncludes c rcsItemStr) := by
      rw [hl, ← ha]
      exact List.mem_cons_self a t
    exact ⟨(List.mem_filter.mp hmem).1, (List.mem_filter.mp hmem).2⟩

theorem subPassOne_good_grows (listing : String → List String) (configDir sub : String)
    {dom0 d : List DomItem} (hg : GoodRcs d) (hgr : DomGrows dom0 d) :
    GoodRcs (subPassOne listing configDir d sub)
      ∧ DomGrows dom0 (subPassOne listing configDir d sub) := by
  cases hpq : domQuery d (splitHead sub) with
  | none => simp only [subPassOne, hpq]; exact ⟨hg, hgr⟩
  | some it =>
    cases hfc : firstRcsClass it.classes with
    | none => simp only [subPassOne, hpq, hfc]; exact ⟨hg, hgr⟩
    | some cls =>
      simp only [subPassOne, hpq, hfc]
      obtain ⟨hmem, hinc⟩ := firstRcsClass_spec hfc
      have hit : it ∈ d := List.mem_of_find?_eq_some hpq
      obtain ⟨k, hk1, hk16, hcls⟩ := hg it hit cls hmem hinc
      subst hcls
      apply enumAddPass_good_grows _ _ _ hg hgr
      intro j c hc
      rcases List.mem_cons.mp hc with h1 | h1
      · rw [h1, subItemClass_startOf hk1 hk16 j]
        exact Or.inr ⟨(startOf k + j) % 16 + 1, by omega, by omega, rfl⟩
      · rw [List.mem_singleton.mp h1]
        exact Or.inl rfl

theorem subFolds_good_grows (listing : String → List String) (configDir : String)
    (subs : List String) {dom0 d : List DomItem} (hg : GoodRcs d) (hgr : DomGrows dom0 d) :
    GoodRcs (subs.foldl (subPassOne listing configDir) d)
      ∧ DomGrows dom0 (subs.foldl (subPassOne listing configDir) d) := by
  induction subs generalizing d with
  | nil => exact ⟨hg, hgr⟩
  | cons sub subs ih =>
    rw [List.foldl_cons]
    obtain ⟨hg1, hgr1⟩ := subPassOne_good_grows listing configDir sub hg hgr
    exact ih hg1 hgr1

/-- The `GoodRcs` invariant is established on the host's clean tree (via
`noRcs_goodRcs`) and preserved by every run, so it holds at each of the
code's calls to setFolderStyling: the first boot, every layout-change boot
and every debounced observer re-run on the already-annotated tree. -/
theorem setFolderStyling_good_grows (listing : String → List String) (configDir : String)
    (cmp : String → String → Bool) (s : RainbowColoredSidebarSettings) {dom : List DomItem}
    (hgood : GoodRcs dom) :
    GoodRcs (setFolderStyling listing configDir cmp s dom)
      ∧ DomGrows dom (setFolderStyling listing configDir cmp s dom) := by
  rw [setFolderStyling_eq]
  have htop := enumAddPass_good_grows (fun i => [rcsItemClass ((i % 16) + 1)])
    (fun i c hc => by
      rw [List.mem_singleton.mp hc]
      exact Or.inr ⟨(i % 16) + 1, by omega, by omega, rfl⟩)
    (visibleSorted cmp (listing "/")) hgood (domGrows_refl dom)
  exact subFolds_good_grows listing configDir s.folderList htop.1 htop.2

theorem domGrows_map_path {d1 d2 : List DomItem} (h : DomGrows d1 d2) :
    d2.map (fun it => it.path) = d1.map (fun it => it.path) := by
  induction h with
  | nil => rfl
  | cons hr hrest ih => simp only [List.map_cons, hr.1, ih]

/-- C6: on any DOM satisfying the run invariant `GoodRcs` — every class
containing "rcs-item" is a well-formed rcs-item-k, k in 1..16, which holds
for the host's untouched tree (no such class at all) and is preserved by
every run, hence at every boot, layout-change and observer re-run — a run
of setFolderStyling creates and removes no tree item, changes no
data-path, and only appends classes of the form rcs-item-k (k in 1..16) or
rcs-sub-item to class lists; everything else is untouched. -/
theorem setFolderStyling_frame (listing : String → List String) (configDir : String)
    (cmp : String → String → Bool) (s : RainbowColoredSidebarSettings) (dom : List DomItem)
    (hgood : GoodRcs dom) :
    (setFolderStyling listing configDir cmp s dom).map (fun it => it.path)
        = dom.map (fun it => it.path)
      ∧ List.Forall₂
          (fun a b => ∃ added, b.classes = a.classes ++ added
              ∧ ∀ c ∈ added, c = rcsSubItemStr ∨ ∃ k, 1 ≤ k ∧ k ≤ 16 ∧ c = rcsItemClass k)
          dom (setFolderStyling listing configDir cmp s dom) := by
  obtain ⟨hgood', hgrows⟩ := setFolderStyling_good_grows listing configDir cmp s hgood
  refine ⟨domGrows_map_path hgrows, hgrows.imp ?_⟩
  intro a b hr
  obtain ⟨hp, added, hcl, hall⟩ := hr
  exact ⟨added, hcl, fun c hc => hall c hc⟩

/-- Witness for C6: a re-run on an already-annotated tree (a host class
plus the rcs-item-1 left by an earlier run) keeps the item and its
data-path. -/
theorem setFolderStyling_frame_witness :
    (setFolderStyling (fun p => if p = "/" then ["A"] else []) ".obsidian" cpLe
        { scheme := "csDefault", increaseContrast := false, folderList := [] }
        [⟨"A", ["nav-folder", rcsItemClass 1]⟩]).map (fun it => it.path)
      = ["A"] := by
  have hgood : GoodRcs [⟨"A", ["nav-folder", rcsItemClass 1]⟩] := by
    intro it hit c hc hinc
    rw [List.mem_singleton.mp hit] at hc
    rcases List.mem_cons.mp hc with h1 | h1
    · rw [h1] at hinc
      exact absurd hinc (by decide)
    · rw [List.mem_singleton.mp h1]
      exact ⟨1, by omega, by omega, rfl⟩
  have h := setFolderStyling_frame (fun p => if p = "/" then ["A"] else []) ".obsidian" cpLe
    { scheme := "csDefault", increaseContrast := false, folderList := [] }
    [⟨"A", ["nav-folder", rcsItemClass 1]⟩] hgood
  exact h.1
